import Mathlib

/-!
Verification of a thread-safe best-fit malloc (`my_malloc.c`).

The allocator keeps an address-sorted singly linked free list of block
headers.  Each header carries the usable size of the region that follows it
(excluding the header itself) and a link to the next free block.  We embed
the free list as a Lean `List Block` in address order; a `Block` records the
header address and the usable size, which is exactly the information the C
code reads and writes through its `block_t` structure.  `META_SIZE` is
`sizeof(block_t)` on the 64-bit target: an 8-byte `size_t` plus an 8-byte
pointer.
-/

structure Block where
  addr : Nat
  size : Nat
deriving Repr, DecidableEq

def META_SIZE : Nat := 16

/-- Address one past the last payload byte of a block: header address plus
header size plus usable size.  Two blocks `p`, `q` are physically adjacent
(`p` just before `q`) when `blockEnd p = q.addr`. -/
def blockEnd (b : Block) : Nat := b.addr + META_SIZE + b.size

/-- Forward-coalescing step of `insert_free_block`: after the freed block
`b` has been linked in front of `after`, merge `b` with the head of `after`
when they are physically adjacent (`(char*)block + META_SIZE + block->size
== (char*)block->next`), absorbing the neighbour's header and size. -/
def mergeNext (b : Block) (after : List Block) : Block × List Block :=
  match after with
  | [] => (b, [])
  | n :: rest =>
      if blockEnd b = n.addr then (⟨b.addr, b.size + META_SIZE + n.size⟩, rest)
      else (b, n :: rest)

/-- Splice the freed block `b` after the walk's final `prev` node `p`
(`p.addr < b.addr`), in front of the remaining nodes `after`: link `b` in,
forward-merge with the next node, then backward-merge with `p` when
`(char*)prev + META_SIZE + prev->size == (char*)block`, using `b`'s possibly
just-grown size as the C code does. -/
def spliceAfter (p b : Block) (after : List Block) : List Block :=
  if blockEnd p = b.addr then
    ⟨p.addr, p.size + META_SIZE + (mergeNext b after).1.size⟩ :: (mergeNext b after).2
  else p :: (mergeNext b after).1 :: (mergeNext b after).2

/-- The sorted-position walk of `insert_free_block` after at least one node
has been passed: `p` is the current `prev` (so `p.addr < b.addr`) and the
argument list is what follows `p`.  The walk advances while the current
node's address is below `b`'s, then splices with coalescing. -/
def insertLoop (p b : Block) : List Block → List Block
  | [] => spliceAfter p b []
  | c :: rest =>
      if c.addr < b.addr then p :: insertLoop c b rest
      else spliceAfter p b (c :: rest)

/-- `insert_free_block(head, block)` from `my_malloc.c`: walk the
address-sorted list to the first node whose address is not below `block`'s,
splice `block` there, then coalesce with the next node and with the final
`prev` node when physically adjacent.  When no node precedes `block`, the
list head is updated and only the forward merge can apply. -/
def insert_free_block (l : List Block) (b : Block) : List Block :=
  match l with
  | [] => [b]
  | c :: rest =>
      if c.addr < b.addr then insertLoop c b rest
      else (mergeNext b (c :: rest)).1 :: (mergeNext b (c :: rest)).2

/-- The scanning loop of `best_fit_search`: walk the whole list keeping the
first block of minimal size among those with `size >= req` (updates only on
a strictly smaller size, so ties keep the earliest block), and stop early as
soon as the current best has size exactly `req`.  The result carries the
position of the chosen node so that the caller can unlink it. -/
def bestScan (req : Nat) : List Block → Nat → Option (Nat × Block) → Option (Nat × Block)
  | [], _, best => best
  | c :: rest, i, none =>
      if req ≤ c.size then
        if c.size = req then some (i, c)
        else bestScan req rest (i + 1) (some (i, c))
      else bestScan req rest (i + 1) none
  | c :: rest, i, some p =>
      if req ≤ c.size then
        if c.size < p.2.size then
          if c.size = req then some (i, c)
          else bestScan req rest (i + 1) (some (i, c))
        else
          if p.2.size = req then some p
          else bestScan req rest (i + 1) (some p)
      else bestScan req rest (i + 1) (some p)

/-- `best_fit_search(head, size)` from `my_malloc.c`: scan for the best
(smallest adequate) block, unlink it, and split it when the remainder can
hold at least one byte of user data (`best->size >= size + META_SIZE + 1`).
A split places the remainder header `META_SIZE + size` bytes past the
candidate's header, gives it the leftover size, shrinks the candidate to
exactly `size`, and re-inserts the remainder.  Returns the chosen block
together with the resulting free list, or `none` with the list untouched. -/
def best_fit_search (l : List Block) (req : Nat) : Option Block × List Block :=
  match bestScan req l 0 none with
  | none => (none, l)
  | some (i, best) =>
      let l2 := l.eraseIdx i
      if req + META_SIZE + 1 ≤ best.size then
        (some ⟨best.addr, req⟩,
         insert_free_block l2 ⟨best.addr + META_SIZE + req, best.size - req - META_SIZE⟩)
      else (some best, l2)

/-- Allocator state: the free list (the global one for the locking variant,
the calling thread's own one for the thread-local variant) and the current
heap break.  `sbrk` is modelled by its two observable outcomes: success
returns the old break and advances it by the reserved amount, failure
leaves everything unchanged. -/
structure AllocState where
  freeList : List Block
  heapBreak : Nat
deriving Repr, DecidableEq

/-- `ts_malloc_lock(size)`: zero-size requests return null immediately;
otherwise the free list is searched best-fit, and on a miss the heap is
grown by `META_SIZE + size` bytes (`sbrkOk` says whether `sbrk` succeeds)
and a fresh header with the requested size is written at the old break.
The result is the returned block header (the C pointer is its payload,
`addr + META_SIZE`) and the new state. -/
def ts_malloc_lock (sbrkOk : Bool) (st : AllocState) (n : Nat) : Option Block × AllocState :=
  if n = 0 then (none, st)
  else
    match best_fit_search st.freeList n with
    | (some b, l2) => (some b, { st with freeList := l2 })
    | (none, l2) =>
        if sbrkOk then
          (some ⟨st.heapBreak, n⟩,
           { freeList := l2, heapBreak := st.heapBreak + META_SIZE + n })
        else (none, { st with freeList := l2 })

/-- `ts_malloc_nolock(size)`: same algorithm as the locking variant on the
calling thread's own list; only the `sbrk` call is locked, which has no
functional effect on a single call. -/
def ts_malloc_nolock (sbrkOk : Bool) (st : AllocState) (n : Nat) : Option Block × AllocState :=
  if n = 0 then (none, st)
  else
    match best_fit_search st.freeList n with
    | (some b, l2) => (some b, { st with freeList := l2 })
    | (none, l2) =>
        if sbrkOk then
          (some ⟨st.heapBreak, n⟩,
           { freeList := l2, heapBreak := st.heapBreak + META_SIZE + n })
        else (none, { st with freeList := l2 })

/-- `ts_free_lock(ptr)`: null is a no-op, otherwise the header just before
the payload is inserted into the free list with coalescing. -/
def ts_free_lock (st : AllocState) (ptr : Option Block) : AllocState :=
  match ptr with
  | none => st
  | some b => { st with freeList := insert_free_block st.freeList b }

/-- `ts_free_nolock(ptr)`: identical to the locking variant but on the
calling thread's own list. -/
def ts_free_nolock (st : AllocState) (ptr : Option Block) : AllocState :=
  match ptr with
  | none => st
  | some b => { st with freeList := insert_free_block st.freeList b }

/-- Total number of bytes covered by the blocks of a free list, counting for
each block its header plus its usable size. -/
def coverSum : List Block → Nat
  | [] => 0
  | b :: rest => META_SIZE + b.size + coverSum rest

/-- First block of minimal size among those with `size ≥ req`, with its
position; an exact fit at the head stops the recursion just as the loop's
early exit does.  On a tie the earlier block wins (`<` comparison only). -/
def findBestRec (req : Nat) : List Block → Option (Nat × Block)
  | [] => none
  | c :: rest =>
      if req ≤ c.size then
        if c.size = req then some (0, c)
        else
          match findBestRec req rest with
          | none => some (0, c)
          | some (m, d) => if d.size < c.size then some (m + 1, d) else some (0, c)
      else
        match findBestRec req rest with
        | none => none
        | some (m, d) => some (m + 1, d)

/-- Combine the scan's accumulator (a candidate found before position `i`)
with the outcome of scanning the rest of the list: the later candidate wins
only with a strictly smaller size. -/
def mergeAcc (i : Nat) (acc r : Option (Nat × Block)) : Option (Nat × Block) :=
  match acc, r with
  | none, none => none
  | none, some (m, d) => some (i + m, d)
  | some p, none => some p
  | some p, some (m, d) => if d.size < p.2.size then some (i + m, d) else some p

example : insert_free_block [] ⟨0, 5⟩ = [⟨0, 5⟩] := by decide
example : insert_free_block [⟨0, 4⟩] ⟨20, 5⟩ = [⟨0, 25⟩] := by decide
example : insert_free_block [⟨0, 4⟩] ⟨100, 5⟩ = [⟨0, 4⟩, ⟨100, 5⟩] := by decide
example : insert_free_block [⟨100, 5⟩] ⟨0, 84⟩ = [⟨0, 105⟩] := by decide
example : insert_free_block [⟨0, 4⟩, ⟨40, 5⟩] ⟨20, 4⟩ = [⟨0, 45⟩] := by decide
example : insert_free_block [⟨0, 4⟩, ⟨36, 5⟩] ⟨20, 0⟩ = [⟨0, 41⟩] := by decide
example : insert_free_block [⟨0, 4⟩, ⟨100, 5⟩] ⟨40, 8⟩ = [⟨0, 4⟩, ⟨40, 8⟩, ⟨100, 5⟩] := by decide
example : insert_free_block [⟨0, 4⟩, ⟨40, 5⟩] ⟨20, 8⟩ = [⟨0, 28⟩, ⟨40, 5⟩] := by decide
example : best_fit_search [⟨0, 5⟩, ⟨32, 3⟩] 3 = (some ⟨32, 3⟩, [⟨0, 5⟩]) := by decide
example : best_fit_search [⟨0, 5⟩, ⟨32, 3⟩] 9 = (none, [⟨0, 5⟩, ⟨32, 3⟩]) := by decide
example : best_fit_search [⟨0, 40⟩] 4 = (some ⟨0, 4⟩, [⟨20, 20⟩]) := by decide
example : best_fit_search [⟨0, 20⟩] 4 = (some ⟨0, 20⟩, []) := by decide
example : ts_malloc_lock true ⟨[⟨0, 2⟩], 100⟩ 1 = (some ⟨0, 2⟩, ⟨[], 100⟩) := by decide

/-! ### Memory accounted to the free list -/

theorem mergeNext_cover (b : Block) (after : List Block) :
    META_SIZE + (mergeNext b after).1.size + coverSum (mergeNext b after).2 =
      META_SIZE + b.size + coverSum after := by
  cases after with
  | nil => rfl
  | cons n rest =>
      by_cases h : blockEnd b = n.addr
      · simp only [mergeNext, if_pos h, coverSum]
        omega
      · simp [mergeNext, h, coverSum]

theorem spliceAfter_cover (p b : Block) (after : List Block) :
    coverSum (spliceAfter p b after) =
      META_SIZE + p.size + (META_SIZE + b.size + coverSum after) := by
  have hm := mergeNext_cover b after
  by_cases h : blockEnd p = b.addr <;> simp [spliceAfter, h, coverSum] <;> omega

theorem insertLoop_cover (l : List Block) (p b : Block) :
    coverSum (insertLoop p b l) =
      META_SIZE + p.size + (META_SIZE + b.size + coverSum l) := by
  induction l generalizing p with
  | nil => simpa [insertLoop] using spliceAfter_cover p b []
  | cons c rest ih =>
      by_cases h : c.addr < b.addr
      · simp only [insertLoop, if_pos h, coverSum, ih c]
        omega
      · simp only [insertLoop, if_neg h]
        rw [spliceAfter_cover]

theorem insert_cover (l : List Block) (b : Block) :
    coverSum (insert_free_block l b) = coverSum l + (META_SIZE + b.size) := by
  cases l with
  | nil => simp [insert_free_block, coverSum]
  | cons c rest =>
      by_cases h : c.addr < b.addr
      · simp only [insert_free_block, if_pos h]
        rw [insertLoop_cover]
        simp [coverSum]; ring
      · simp only [insert_free_block, if_neg h]
        have hm := mergeNext_cover b (c :: rest)
        simp only [coverSum] at *
        omega

/-! ### Length change under insertion -/

theorem mergeNext_len (b : Block) (after : List Block) :
    (mergeNext b after).2.length = after.length ∨
      (mergeNext b after).2.length + 1 = after.length := by
  cases after with
  | nil => simp [mergeNext]
  | cons n rest => by_cases h : blockEnd b = n.addr <;> simp [mergeNext, h]

theorem spliceAfter_len (p b : Block) (after : List Block) :
    (spliceAfter p b after).length = after.length ∨
      (spliceAfter p b after).length = after.length + 1 ∨
      (spliceAfter p b after).length = after.length + 2 := by
  have hm := mergeNext_len b after
  by_cases h : blockEnd p = b.addr <;> simp [spliceAfter, h] <;> omega

theorem insertLoop_len (l : List Block) (p b : Block) :
    (insertLoop p b l).length = l.length ∨
      (insertLoop p b l).length = l.length + 1 ∨
      (insertLoop p b l).length = l.length + 2 := by
  induction l generalizing p with
  | nil => simpa [insertLoop] using spliceAfter_len p b []
  | cons c rest ih =>
      by_cases h : c.addr < b.addr
      · have := ih c
        simp only [insertLoop, if_pos h, List.length_cons]
        omega
      · simpa [insertLoop, if_neg h] using spliceAfter_len p b (c :: rest)

/-! ### Addresses appearing after an insertion -/

theorem mergeNext_fst_addr (b : Block) (after : List Block) :
    (mergeNext b after).1.addr = b.addr := by
  cases after with
  | nil => rfl
  | cons n rest => by_cases h : blockEnd b = n.addr <;> simp [mergeNext, h]

theorem mergeNext_snd_sub (b : Block) (after : List Block) :
    ∀ x ∈ (mergeNext b after).2, x ∈ after := by
  cases after with
  | nil => simp [mergeNext]
  | cons n rest =>
      by_cases h : blockEnd b = n.addr
      · simp only [mergeNext, if_pos h]
        exact fun x hx => List.mem_cons_of_mem n hx
      · simp only [mergeNext, if_neg h]
        exact fun x hx => hx

theorem spliceAfter_mem (p b : Block) (after : List Block) :
    ∀ x ∈ spliceAfter p b after, x.addr = p.addr ∨ x.addr = b.addr ∨ x ∈ after := by
  unfold spliceAfter
  by_cases h : blockEnd p = b.addr
  · simp only [if_pos h]
    intro x hx
    rcases List.mem_cons.mp hx with hx | hx
    · exact Or.inl (by rw [hx])
    · exact Or.inr (Or.inr (mergeNext_snd_sub b after x hx))
  · simp only [if_neg h]
    intro x hx
    rcases List.mem_cons.mp hx with hx | hx
    · exact Or.inl (by rw [hx])
    · rcases List.mem_cons.mp hx with hx | hx
      · exact Or.inr (Or.inl (by rw [hx]; exact mergeNext_fst_addr b after))
      · exact Or.inr (Or.inr (mergeNext_snd_sub b after x hx))

theorem insertLoop_mem (l : List Block) (p b : Block) :
    ∀ x ∈ insertLoop p b l, x.addr = b.addr ∨ ∃ y ∈ p :: l, x.addr = y.addr := by
  induction l generalizing p with
  | nil =>
      intro x hx
      rcases spliceAfter_mem p b [] x hx with h | h | h
      · exact Or.inr ⟨p, by simp, h⟩
      · exact Or.inl h
      · simp at h
  | cons c rest ih =>
      intro x hx
      by_cases h : c.addr < b.addr
      · simp only [insertLoop, if_pos h] at hx
        rcases List.mem_cons.mp hx with hx | hx
        · exact Or.inr ⟨p, by simp, by rw [hx]⟩
        · rcases ih c x hx with h2 | ⟨y, hy, h2⟩
          · exact Or.inl h2
          · exact Or.inr ⟨y, by simp only [List.mem_cons] at hy ⊢; tauto, h2⟩
      · simp only [insertLoop, if_neg h] at hx
        rcases spliceAfter_mem p b (c :: rest) x hx with h2 | h2 | h2
        · exact Or.inr ⟨p, by simp, h2⟩
        · exact Or.inl h2
        · exact Or.inr ⟨x, by simp [h2], rfl⟩

/-! ### Preservation of strict address order (Invariant A) -/

theorem spliceAfter_sorted (p b : Block) (after : List Block)
    (h1 : (p :: after).Pairwise (fun x y => x.addr < y.addr))
    (h2 : p.addr < b.addr)
    (h3 : ∀ x ∈ after, b.addr < x.addr) :
    (spliceAfter p b after).Pairwise (fun x y => x.addr < y.addr) := by
  rw [List.pairwise_cons] at h1
  unfold spliceAfter
  by_cases hm : blockEnd p = b.addr
  · rw [if_pos hm, List.pairwise_cons]
    constructor
    · intro x hx
      exact h1.1 x (mergeNext_snd_sub b after x hx)
    · cases after with
      | nil => simp [mergeNext]
      | cons n rest =>
          by_cases hf : blockEnd b = n.addr
          · simp only [mergeNext, if_pos hf]
            exact (List.pairwise_cons.mp h1.2).2
          · simp only [mergeNext, if_neg hf]
            exact h1.2
  · rw [if_neg hm, List.pairwise_cons]
    refine ⟨?_, ?_⟩
    · intro x hx
      rcases List.mem_cons.mp hx with hx | hx
      · rw [hx, mergeNext_fst_addr]; exact h2
      · exact h1.1 x (mergeNext_snd_sub b after x hx)
    · rw [List.pairwise_cons]
      refine ⟨?_, ?_⟩
      · intro x hx
        rw [mergeNext_fst_addr]
        exact h3 x (mergeNext_snd_sub b after x hx)
      · cases after with
        | nil => simp [mergeNext]
        | cons n rest =>
            by_cases hf : blockEnd b = n.addr
            · simp only [mergeNext, if_pos hf]
              exact (List.pairwise_cons.mp h1.2).2
            · simp only [mergeNext, if_neg hf]
              exact h1.2

theorem insertLoop_sorted (l : List Block) (p b : Block)
    (h1 : (p :: l).Pairwise (fun x y => x.addr < y.addr))
    (h2 : p.addr < b.addr)
    (h3 : ∀ c ∈ p :: l, c.addr ≠ b.addr) :
    (insertLoop p b l).Pairwise (fun x y => x.addr < y.addr) := by
  induction l generalizing p with
  | nil =>
      exact spliceAfter_sorted p b [] h1 h2 (by simp)
  | cons c rest ih =>
      rw [List.pairwise_cons] at h1
      by_cases hc : c.addr < b.addr
      · simp only [insertLoop, if_pos hc]
        rw [List.pairwise_cons]
        refine ⟨?_, ?_⟩
        · intro x hx
          rcases insertLoop_mem rest c b x hx with hx2 | ⟨y, hy, hx2⟩
          · rw [hx2]; exact h2
          · rw [hx2]; exact h1.1 y hy
        · exact ih c h1.2 hc (fun x hx => h3 x (List.mem_cons_of_mem p hx))
      · simp only [insertLoop, if_neg hc]
        refine spliceAfter_sorted p b (c :: rest) (List.pairwise_cons.mpr h1) h2 ?_
        intro x hx
        rcases List.mem_cons.mp hx with hx | hx
        · subst hx
          have hle : b.addr ≤ x.addr := Nat.le_of_not_lt hc
          have hne : b.addr ≠ x.addr := fun h => (h3 x (by simp)) h.symm
          omega
        · have hcx : c.addr < x.addr := (List.pairwise_cons.mp h1.2).1 x hx
          have hle : b.addr ≤ c.addr := Nat.le_of_not_lt hc
          omega

/-! ### Preservation of separation (Invariants A and B combined):
consecutive blocks satisfy `blockEnd p < q.addr`, i.e. the list is in
ascending address order, blocks do not overlap, and no two blocks are
physically adjacent. -/

theorem spliceAfter_sep (p b : Block) (after : List Block)
    (h1 : (p :: after).Pairwise (fun x y => blockEnd x < y.addr))
    (h2 : blockEnd p ≤ b.addr)
    (h3 : ∀ x ∈ after, blockEnd b ≤ x.addr) :
    (spliceAfter p b after).Pairwise (fun x y => blockEnd x < y.addr) := by
  have hM : META_SIZE = 16 := rfl
  rw [List.pairwise_cons] at h1
  unfold spliceAfter
  cases after with
  | nil =>
      by_cases hm : blockEnd p = b.addr
      · simp [mergeNext, if_pos hm]
      · simp only [mergeNext, if_neg hm]
        simp only [List.pairwise_cons, List.not_mem_nil, false_implies, implies_true,
          List.Pairwise.nil, and_true, List.mem_singleton, forall_eq, true_and]
        exact Nat.lt_of_le_of_ne h2 hm
  | cons n rest =>
      have hbn : blockEnd b ≤ n.addr := h3 n (by simp)
      have hnend : n.addr < blockEnd n := by simp only [blockEnd]; omega
      by_cases hf : blockEnd b = n.addr
      · -- forward merge absorbs n; the merged block ends where n ended
        have hend : blockEnd (⟨b.addr, b.size + META_SIZE + n.size⟩ : Block) = blockEnd n := by
          simp only [blockEnd] at hf ⊢
          omega
        by_cases hm : blockEnd p = b.addr
        · simp only [mergeNext, if_pos hf, if_pos hm, List.pairwise_cons]
          refine ⟨?_, (List.pairwise_cons.mp h1.2).2⟩
          intro x hx
          have hcx : blockEnd n < x.addr := (List.pairwise_cons.mp h1.2).1 x hx
          simp only [blockEnd] at hm hf hcx ⊢
          omega
        · simp only [mergeNext, if_pos hf, if_neg hm, List.pairwise_cons]
          refine ⟨?_, ?_, (List.pairwise_cons.mp h1.2).2⟩
          · intro x hx
            rcases List.mem_cons.mp hx with hx | hx
            · subst hx
              simp only [blockEnd] at h2 hm ⊢
              omega
            · exact h1.1 x (List.mem_cons_of_mem n hx)
          · intro x hx
            have hcx : blockEnd n < x.addr := (List.pairwise_cons.mp h1.2).1 x hx
            rw [hend]
            exact hcx
      · -- no forward merge: b ends strictly before n begins
        have hbn2 : blockEnd b < n.addr := Nat.lt_of_le_of_ne hbn hf
        by_cases hm : blockEnd p = b.addr
        · simp only [mergeNext, if_neg hf, if_pos hm, List.pairwise_cons]
          have hend : blockEnd (⟨p.addr, p.size + META_SIZE + b.size⟩ : Block) = blockEnd b := by
            simp only [blockEnd] at hm ⊢
            omega
          refine ⟨?_, List.pairwise_cons.mp h1.2⟩
          intro x hx
          rw [hend]
          rcases List.mem_cons.mp hx with hx | hx
          · subst hx; exact hbn2
          · have hcx : blockEnd n < x.addr := (List.pairwise_cons.mp h1.2).1 x hx
            omega
        · simp only [mergeNext, if_neg hf, if_neg hm, List.pairwise_cons]
          refine ⟨?_, ?_, List.pairwise_cons.mp h1.2⟩
          · intro x hx
            rcases List.mem_cons.mp hx with hx | hx
            · subst hx
              simp only [blockEnd] at h2 hm ⊢
              omega
            · exact h1.1 x hx
          · intro x hx
            rcases List.mem_cons.mp hx with hx | hx
            · subst hx; exact hbn2
            · have hcx : blockEnd n < x.addr := (List.pairwise_cons.mp h1.2).1 x hx
              omega

theorem insertLoop_sep (l : List Block) (p b : Block)
    (h1 : (p :: l).Pairwise (fun x y => blockEnd x < y.addr))
    (h2 : p.addr < b.addr)
    (h3 : ∀ c ∈ p :: l, blockEnd c ≤ b.addr ∨ blockEnd b ≤ c.addr) :
    (insertLoop p b l).Pairwise (fun x y => blockEnd x < y.addr) := by
  have hM : META_SIZE = 16 := rfl
  have hpb : blockEnd p ≤ b.addr := by
    rcases h3 p (by simp) with h | h
    · exact h
    · simp only [blockEnd] at h
      omega
  induction l generalizing p with
  | nil => exact spliceAfter_sep p b [] h1 hpb (by simp)
  | cons c rest ih =>
      rw [List.pairwise_cons] at h1
      by_cases hc : c.addr < b.addr
      · simp only [insertLoop, if_pos hc]
        rw [List.pairwise_cons]
        have hpc : blockEnd p < c.addr := h1.1 c (by simp)
        refine ⟨?_, ?_⟩
        · intro x hx
          rcases insertLoop_mem rest c b x hx with hx2 | ⟨y, hy, hx2⟩
          · rw [hx2]; omega
          · rw [hx2]; exact h1.1 y hy
        · exact ih c h1.2 hc (fun x hx => h3 x (List.mem_cons_of_mem p hx))
            (by
              rcases h3 c (by simp) with h | h
              · exact h
              · simp only [blockEnd] at h
                omega)
      · simp only [insertLoop, if_neg hc]
        refine spliceAfter_sep p b (c :: rest) (List.pairwise_cons.mpr h1) hpb ?_
        intro x hx
        rcases List.mem_cons.mp hx with hx | hx
        · subst hx
          rcases h3 x (by simp) with h | h
          · simp only [blockEnd] at h
            omega
          · exact h
        · have hcx : blockEnd c < x.addr := (List.pairwise_cons.mp h1.2).1 x hx
          rcases h3 x (by simp [hx]) with h | h
          · simp only [blockEnd] at h hcx
            omega
          · exact h

/-! ### Small-list computations used for the coalescing scenario -/

theorem insert_pair_after_adj (p b : Block) (h1 : p.addr < b.addr)
    (h2 : blockEnd p = b.addr) :
    insert_free_block [p] b = [⟨p.addr, p.size + META_SIZE + b.size⟩] := by
  simp [insert_free_block, insertLoop, spliceAfter, mergeNext, if_pos h1, if_pos h2]

theorem insert_pair_after_gap (p b : Block) (h1 : p.addr < b.addr)
    (h2 : blockEnd p ≠ b.addr) :
    insert_free_block [p] b = [p, b] := by
  simp [insert_free_block, insertLoop, spliceAfter, mergeNext, if_pos h1, if_neg h2]

theorem insert_pair_before_adj (c b : Block) (h1 : ¬ c.addr < b.addr)
    (h2 : blockEnd b = c.addr) :
    insert_free_block [c] b = [⟨b.addr, b.size + META_SIZE + c.size⟩] := by
  simp [insert_free_block, mergeNext, if_neg h1, if_pos h2]

theorem insert_pair_before_gap (c b : Block) (h1 : ¬ c.addr < b.addr)
    (h2 : blockEnd b ≠ c.addr) :
    insert_free_block [c] b = [b, c] := by
  simp [insert_free_block, mergeNext, if_neg h1, if_neg h2]

theorem insert_mid_both_adj (p c b : Block) (h1 : p.addr < b.addr)
    (h2 : ¬ c.addr < b.addr) (h3 : blockEnd b = c.addr) (h4 : blockEnd p = b.addr) :
    insert_free_block [p, c] b =
      [⟨p.addr, p.size + META_SIZE + (b.size + META_SIZE + c.size)⟩] := by
  simp [insert_free_block, insertLoop, spliceAfter, mergeNext,
    if_pos h1, if_neg h2, if_pos h3, if_pos h4]

/-! ### Freeing three contiguous blocks in each of the six possible orders -/

theorem coalesce_ABC (a sa sb sc : Nat) :
    insert_free_block (insert_free_block (insert_free_block [] ⟨a, sa⟩)
        ⟨a + META_SIZE + sa, sb⟩) ⟨a + META_SIZE + sa + META_SIZE + sb, sc⟩ =
      [⟨a, sa + META_SIZE + sb + META_SIZE + sc⟩] := by
  have hM : META_SIZE = 16 := rfl
  show insert_free_block (insert_free_block [⟨a, sa⟩] ⟨a + META_SIZE + sa, sb⟩) _ = _
  rw [insert_pair_after_adj ⟨a, sa⟩ ⟨a + META_SIZE + sa, sb⟩ (by first | rfl | (dsimp only [blockEnd]; omega)) rfl]
  rw [insert_pair_after_adj _ _ (by first | rfl | (dsimp only [blockEnd]; omega)) (by first | rfl | (dsimp only [blockEnd]; omega))]

theorem coalesce_ACB (a sa sb sc : Nat) :
    insert_free_block (insert_free_block (insert_free_block [] ⟨a, sa⟩)
        ⟨a + META_SIZE + sa + META_SIZE + sb, sc⟩) ⟨a + META_SIZE + sa, sb⟩ =
      [⟨a, sa + META_SIZE + sb + META_SIZE + sc⟩] := by
  have hM : META_SIZE = 16 := rfl
  show insert_free_block (insert_free_block [⟨a, sa⟩] ⟨a + META_SIZE + sa + META_SIZE + sb, sc⟩) _ = _
  rw [insert_pair_after_gap _ _ (by first | rfl | (dsimp only [blockEnd]; omega)) (by first | rfl | (dsimp only [blockEnd]; omega))]
  rw [insert_mid_both_adj _ _ _ (by first | rfl | (dsimp only [blockEnd]; omega)) (by first | rfl | (dsimp only [blockEnd]; omega)) rfl rfl]
  have h : sa + META_SIZE + (sb + META_SIZE + sc) = sa + META_SIZE + sb + META_SIZE + sc := by
    omega
  rw [h]

theorem coalesce_BAC (a sa sb sc : Nat) :
    insert_free_block (insert_free_block (insert_free_block [] ⟨a + META_SIZE + sa, sb⟩)
        ⟨a, sa⟩) ⟨a + META_SIZE + sa + META_SIZE + sb, sc⟩ =
      [⟨a, sa + META_SIZE + sb + META_SIZE + sc⟩] := by
  have hM : META_SIZE = 16 := rfl
  show insert_free_block (insert_free_block [⟨a + META_SIZE + sa, sb⟩] ⟨a, sa⟩) _ = _
  rw [insert_pair_before_adj _ _ (by first | rfl | (dsimp only [blockEnd]; omega)) rfl]
  rw [insert_pair_after_adj _ _ (by first | rfl | (dsimp only [blockEnd]; omega)) (by first | rfl | (dsimp only [blockEnd]; omega))]

theorem coalesce_BCA (a sa sb sc : Nat) :
    insert_free_block (insert_free_block (insert_free_block [] ⟨a + META_SIZE + sa, sb⟩)
        ⟨a + META_SIZE + sa + META_SIZE + sb, sc⟩) ⟨a, sa⟩ =
      [⟨a, sa + META_SIZE + sb + META_SIZE + sc⟩] := by
  have hM : META_SIZE = 16 := rfl
  show insert_free_block (insert_free_block [⟨a + META_SIZE + sa, sb⟩]
      ⟨a + META_SIZE + sa + META_SIZE + sb, sc⟩) _ = _
  rw [insert_pair_after_adj _ _ (by first | rfl | (dsimp only [blockEnd]; omega)) rfl]
  rw [insert_pair_before_adj _ _ (by first | rfl | (dsimp only [blockEnd]; omega)) rfl]
  have h : sa + META_SIZE + (sb + META_SIZE + sc) = sa + META_SIZE + sb + META_SIZE + sc := by
    omega
  rw [h]

theorem coalesce_CAB (a sa sb sc : Nat) :
    insert_free_block (insert_free_block (insert_free_block []
        ⟨a + META_SIZE + sa + META_SIZE + sb, sc⟩) ⟨a, sa⟩) ⟨a + META_SIZE + sa, sb⟩ =
      [⟨a, sa + META_SIZE + sb + META_SIZE + sc⟩] := by
  have hM : META_SIZE = 16 := rfl
  show insert_free_block (insert_free_block [⟨a + META_SIZE + sa + META_SIZE + sb, sc⟩]
      ⟨a, sa⟩) _ = _
  rw [insert_pair_before_gap _ _ (by first | rfl | (dsimp only [blockEnd]; omega)) (by first | rfl | (dsimp only [blockEnd]; omega))]
  rw [insert_mid_both_adj _ _ _ (by first | rfl | (dsimp only [blockEnd]; omega)) (by first | rfl | (dsimp only [blockEnd]; omega)) rfl rfl]
  have h : sa + META_SIZE + (sb + META_SIZE + sc) = sa + META_SIZE + sb + META_SIZE + sc := by
    omega
  rw [h]

theorem coalesce_CBA (a sa sb sc : Nat) :
    insert_free_block (insert_free_block (insert_free_block []
        ⟨a + META_SIZE + sa + META_SIZE + sb, sc⟩) ⟨a + META_SIZE + sa, sb⟩) ⟨a, sa⟩ =
      [⟨a, sa + META_SIZE + sb + META_SIZE + sc⟩] := by
  have hM : META_SIZE = 16 := rfl
  show insert_free_block (insert_free_block [⟨a + META_SIZE + sa + META_SIZE + sb, sc⟩]
      ⟨a + META_SIZE + sa, sb⟩) _ = _
  rw [insert_pair_before_adj _ _ (by first | rfl | (dsimp only [blockEnd]; omega)) rfl]
  rw [insert_pair_before_adj _ _ (by first | rfl | (dsimp only [blockEnd]; omega)) rfl]
  have h : sa + META_SIZE + (sb + META_SIZE + sc) = sa + META_SIZE + sb + META_SIZE + sc := by
    omega
  rw [h]

/-! ### The scan loop on a list with no adequate block -/

theorem bestScan_miss (req : Nat) (l : List Block) (i : Nat)
    (h : ∀ c ∈ l, c.size < req) : bestScan req l i none = none := by
  induction l generalizing i with
  | nil => rfl
  | cons c rest ih =>
      have hc : ¬ req ≤ c.size := by
        have := h c (by simp)
        omega
      simp only [bestScan, if_neg hc]
      exact ih (i + 1) (fun c hc => h c (by simp [hc]))

/-! ### A structural description of the scan: the first minimal adequate
block, computed by recursion on the list, together with its position. -/

theorem findBestRec_total (req : Nat) (l : List Block)
    (h : findBestRec req l = none) : ∀ c ∈ l, c.size < req := by
  induction l with
  | nil => simp
  | cons c rest ih =>
      simp only [findBestRec] at h
      by_cases hq : req ≤ c.size
      · rw [if_pos hq] at h
        by_cases hex : c.size = req
        · rw [if_pos hex] at h
          cases h
        · rw [if_neg hex] at h
          cases hr : findBestRec req rest with
          | none => rw [hr] at h; cases h
          | some p =>
              obtain ⟨m, d⟩ := p
              rw [hr] at h
              dsimp only at h
              by_cases hd : d.size < c.size
              · rw [if_pos hd] at h; cases h
              · rw [if_neg hd] at h; cases h
      · rw [if_neg hq] at h
        cases hr : findBestRec req rest with
        | none =>
            intro x hx
            rcases List.mem_cons.mp hx with hx | hx
            · subst hx; omega
            · exact ih hr x hx
        | some p =>
            obtain ⟨m, d⟩ := p
            rw [hr] at h
            dsimp only at h
            cases h

theorem findBestRec_found (req : Nat) (l : List Block) (m : Nat) (d : Block)
    (h : findBestRec req l = some (m, d)) :
    l[m]? = some d ∧ req ≤ d.size ∧
      (∀ c ∈ l, req ≤ c.size → d.size ≤ c.size) ∧
      (∀ m' c, m' < m → l[m']? = some c → req ≤ c.size → d.size < c.size) := by
  induction l generalizing m d with
  | nil => cases h
  | cons c rest ih =>
      simp only [findBestRec] at h
      by_cases hq : req ≤ c.size
      · rw [if_pos hq] at h
        by_cases hex : c.size = req
        · rw [if_pos hex] at h
          rw [Option.some.injEq, Prod.mk.injEq] at h
          obtain ⟨hm, hd⟩ := h
          subst hm; subst hd
          refine ⟨by simp, hq, ?_, by omega⟩
          intro x hx hxq
          omega
        · rw [if_neg hex] at h
          cases hr : findBestRec req rest with
          | none =>
              rw [hr] at h
              dsimp only at h
              rw [Option.some.injEq, Prod.mk.injEq] at h
              obtain ⟨hm, hd⟩ := h
              subst hm; subst hd
              have hrest := findBestRec_total req rest hr
              refine ⟨by simp, hq, ?_, by omega⟩
              intro x hx hxq
              rcases List.mem_cons.mp hx with hx | hx
              · subst hx; omega
              · have := hrest x hx; omega
          | some p =>
              obtain ⟨m0, d0⟩ := p
              rw [hr] at h
              dsimp only at h
              have IH := ih m0 d0 hr
              by_cases hlt : d0.size < c.size
              · rw [if_pos hlt] at h
                rw [Option.some.injEq, Prod.mk.injEq] at h
                obtain ⟨hm, hd⟩ := h
                subst hm; subst hd
                refine ⟨by simpa using IH.1, IH.2.1, ?_, ?_⟩
                · intro x hx hxq
                  rcases List.mem_cons.mp hx with hx | hx
                  · subst hx; omega
                  · exact IH.2.2.1 x hx hxq
                · intro m' x hm' hx hxq
                  cases m' with
                  | zero =>
                      simp only [List.getElem?_cons_zero, Option.some.injEq] at hx
                      subst hx; omega
                  | succ k =>
                      simp only [List.getElem?_cons_succ] at hx
                      exact IH.2.2.2 k x (by omega) hx hxq
              · rw [if_neg hlt] at h
                rw [Option.some.injEq, Prod.mk.injEq] at h
                obtain ⟨hm, hd⟩ := h
                subst hm; subst hd
                refine ⟨by simp, hq, ?_, by omega⟩
                intro x hx hxq
                rcases List.mem_cons.mp hx with hx | hx
                · subst hx; omega
                · have := IH.2.2.1 x hx hxq; omega
      · rw [if_neg hq] at h
        cases hr : findBestRec req rest with
        | none => rw [hr] at h; cases h
        | some p =>
            obtain ⟨m0, d0⟩ := p
            rw [hr] at h
            dsimp only at h
            rw [Option.some.injEq, Prod.mk.injEq] at h
            obtain ⟨hm, hd⟩ := h
            subst hm; subst hd
            have IH := ih m0 d0 hr
            refine ⟨by simpa using IH.1, IH.2.1, ?_, ?_⟩
            · intro x hx hxq
              rcases List.mem_cons.mp hx with hx | hx
              · subst hx; omega
              · exact IH.2.2.1 x hx hxq
            · intro m' x hm' hx hxq
              cases m' with
              | zero =>
                  simp only [List.getElem?_cons_zero, Option.some.injEq] at hx
                  subst hx; omega
              | succ k =>
                  simp only [List.getElem?_cons_succ] at hx
                  exact IH.2.2.2 k x (by omega) hx hxq

theorem bestScan_eq_mergeAcc (req : Nat) (l : List Block) :
    ∀ (i : Nat) (acc : Option (Nat × Block)),
      (∀ q, acc = some q → req < q.2.size) →
      bestScan req l i acc = mergeAcc i acc (findBestRec req l) := by
  induction l with
  | nil =>
      intro i acc hacc
      cases acc with
      | none => rfl
      | some p => rfl
  | cons c rest ih =>
      intro i acc hacc
      cases acc with
      | none =>
          by_cases hq : req ≤ c.size
          · by_cases hex : c.size = req
            · simp only [bestScan, if_pos hq, if_pos hex, findBestRec, mergeAcc]
              simp
            · simp only [bestScan, if_pos hq, if_neg hex, findBestRec]
              rw [ih (i + 1) (some (i, c)) (by intro q hq2; cases hq2; dsimp; omega)]
              cases hr : findBestRec req rest with
              | none => simp [mergeAcc]
              | some p =>
                  obtain ⟨m, d⟩ := p
                  by_cases hd : d.size < c.size
                  · simp only [mergeAcc, if_pos hd]
                    simp only [Option.some.injEq, Prod.mk.injEq]
                    exact ⟨by omega, trivial⟩
                  · simp only [mergeAcc, if_neg hd]
                    simp
          · simp only [bestScan, if_neg hq, findBestRec]
            rw [ih (i + 1) none (by intro q hq2; cases hq2)]
            cases hr : findBestRec req rest with
            | none => rfl
            | some p =>
                obtain ⟨m, d⟩ := p
                simp only [mergeAcc, Option.some.injEq, Prod.mk.injEq]
                exact ⟨by omega, trivial⟩
      | some p =>
          obtain ⟨j, b⟩ := p
          have hb : req < b.size := hacc (j, b) rfl
          by_cases hq : req ≤ c.size
          · by_cases hlt : c.size < (j, b).2.size
            · by_cases hex : c.size = req
              · simp only [bestScan, if_pos hq, if_pos hlt, if_pos hex, findBestRec, mergeAcc]
                dsimp at hlt
                simp [hlt]
              · simp only [bestScan, if_pos hq, if_pos hlt, if_neg hex, findBestRec]
                dsimp at hlt
                rw [ih (i + 1) (some (i, c)) (by intro q hq2; cases hq2; dsimp; omega)]
                cases hr : findBestRec req rest with
                | none =>
                    simp only [mergeAcc, if_pos hlt]
                    simp
                | some q =>
                    obtain ⟨m, d⟩ := q
                    by_cases hd : d.size < c.size
                    · have hdb : d.size < b.size := by omega
                      simp only [mergeAcc, if_pos hd, if_pos hdb, Option.some.injEq,
                        Prod.mk.injEq]
                      exact ⟨by omega, trivial⟩
                    · simp only [mergeAcc, if_neg hd, if_pos hlt]
                      simp
            · have hne : ¬ (j, b).2.size = req := by dsimp; omega
              simp only [bestScan, if_pos hq, if_neg hlt, if_neg hne]
              dsimp at hlt
              have hex : ¬ c.size = req := by omega
              simp only [findBestRec, if_pos hq, if_neg hex]
              rw [ih (i + 1) (some (j, b)) (by intro q hq2; cases hq2; exact hb)]
              cases hr : findBestRec req rest with
              | none => simp [mergeAcc, hlt]
              | some q =>
                  obtain ⟨m, d⟩ := q
                  by_cases hd : d.size < c.size
                  · simp only [mergeAcc, if_pos hd]
                    by_cases hdb : d.size < b.size
                    · simp only [if_pos hdb, Option.some.injEq, Prod.mk.injEq]
                      exact ⟨by omega, trivial⟩
                    · simp only [if_neg hdb]
                  · simp only [mergeAcc, if_neg hd]
                    have hcb : ¬ c.size < b.size := hlt
                    have hdb : ¬ d.size < b.size := by omega
                    simp only [if_neg hcb, if_neg hdb]
          · simp only [bestScan, if_neg hq, findBestRec]
            rw [ih (i + 1) (some (j, b)) (by intro q hq2; cases hq2; exact hb)]
            cases hr : findBestRec req rest with
            | none => rfl
            | some q =>
                obtain ⟨m, d⟩ := q
                by_cases hd : d.size < b.size
                · simp only [mergeAcc, if_pos hd, Option.some.injEq, Prod.mk.injEq]
                  exact ⟨by omega, trivial⟩
                · simp only [mergeAcc, if_neg hd]

theorem bestScan_eq_find (req : Nat) (l : List Block) :
    bestScan req l 0 none = findBestRec req l := by
  rw [bestScan_eq_mergeAcc req l 0 none (by intro q hq2; cases hq2)]
  cases hr : findBestRec req l with
  | none => rfl
  | some p =>
      obtain ⟨m, d⟩ := p
      simp [mergeAcc]

/-! ### Facts about `best_fit_search` derived from the scan description -/

theorem bfs_of_scan_none (l : List Block) (req : Nat)
    (h : bestScan req l 0 none = none) : best_fit_search l req = (none, l) := by
  unfold best_fit_search
  rw [h]

theorem bfs_fst_none (l : List Block) (req : Nat)
    (h : (best_fit_search l req).1 = none) : best_fit_search l req = (none, l) := by
  unfold best_fit_search at *
  cases hr : bestScan req l 0 none with
  | none => rfl
  | some p =>
      obtain ⟨i, best⟩ := p
      rw [hr] at h
      dsimp only at h
      by_cases hs : req + META_SIZE + 1 ≤ best.size
      · rw [if_pos hs] at h
        cases h
      · rw [if_neg hs] at h
        cases h

theorem bfs_miss_all_small (l : List Block) (req : Nat)
    (h : (best_fit_search l req).1 = none) : ∀ c ∈ l, c.size < req := by
  unfold best_fit_search at h
  cases hr : bestScan req l 0 none with
  | none =>
      have : findBestRec req l = none := by rw [← bestScan_eq_find]; exact hr
      exact findBestRec_total req l this
  | some p =>
      obtain ⟨i, best⟩ := p
      rw [hr] at h
      dsimp only at h
      by_cases hs : req + META_SIZE + 1 ≤ best.size
      · rw [if_pos hs] at h; cases h
      · rw [if_neg hs] at h; cases h

theorem bfs_found (l : List Block) (req : Nat) (r : Block)
    (h : (best_fit_search l req).1 = some r) :
    ∃ m d, findBestRec req l = some (m, d) ∧ r.addr = d.addr ∧
      req ≤ r.size ∧ r.size ≤ req + META_SIZE ∧ req ≤ d.size := by
  unfold best_fit_search at h
  cases hr : bestScan req l 0 none with
  | none => rw [hr] at h; cases h
  | some p =>
      obtain ⟨i, best⟩ := p
      have hfind : findBestRec req l = some (i, best) := by
        rw [← bestScan_eq_find]; exact hr
      have hbest := findBestRec_found req l i best hfind
      rw [hr] at h
      dsimp only at h
      by_cases hs : req + META_SIZE + 1 ≤ best.size
      · rw [if_pos hs] at h
        rw [Option.some.injEq] at h
        subst h
        exact ⟨i, best, hfind, rfl, by dsimp; omega, by dsimp; omega, hbest.2.1⟩
      · rw [if_neg hs] at h
        rw [Option.some.injEq] at h
        subst h
        exact ⟨i, best, hfind, rfl, hbest.2.1, by omega, hbest.2.1⟩

/-! ## Claim theorems -/

/-- C1: for every free list and requested size, `best_fit_search` reports
not-found exactly when no block has `size ≥ requested_size`; otherwise the
block it returns is the selected candidate: a block of the list of minimal
size among those with `size ≥ requested_size`, and the first such block in
address order (every earlier adequate block is strictly larger), which is
also the block the early exit on an exact fit stops at. -/
theorem bestFitSearch_selects (l : List Block) (req : Nat) (r : Block) :
    (((best_fit_search l req).1 = none) ↔ ∀ c ∈ l, c.size < req) ∧
    ((best_fit_search l req).1 = some r →
      ∃ (m : Nat) (d : Block), l[m]? = some d ∧ r.addr = d.addr ∧ req ≤ d.size ∧
        (∀ c ∈ l, req ≤ c.size → d.size ≤ c.size) ∧
        (∀ (m' : Nat) (c : Block), m' < m → l[m']? = some c →
          req ≤ c.size → d.size < c.size)) := by
  constructor
  · constructor
    · exact bfs_miss_all_small l req
    · intro h
      have heq : best_fit_search l req = (none, l) :=
        bfs_of_scan_none l req (bestScan_miss req l 0 h)
      rw [heq]
  · intro hr
    obtain ⟨m, d, hfind, haddr, _, _, _⟩ := bfs_found l req r hr
    have hc := findBestRec_found req l m d hfind
    exact ⟨m, d, hc.1, haddr, hc.2.1, hc.2.2.1, hc.2.2.2⟩

theorem bestFitSearch_selects_w :
    (((best_fit_search [Block.mk 0 5, Block.mk 32 3] 3).1 = none) ↔
      ∀ c ∈ [Block.mk 0 5, Block.mk 32 3], c.size < 3) ∧
    ((best_fit_search [Block.mk 0 5, Block.mk 32 3] 3).1 = some (Block.mk 32 3) →
      ∃ (m : Nat) (d : Block), ([Block.mk 0 5, Block.mk 32 3] : List Block)[m]? = some d ∧
        (Block.mk 32 3).addr = d.addr ∧ 3 ≤ d.size ∧
        (∀ c ∈ [Block.mk 0 5, Block.mk 32 3], 3 ≤ c.size → d.size ≤ c.size) ∧
        (∀ (m' : Nat) (c : Block), m' < m →
          ([Block.mk 0 5, Block.mk 32 3] : List Block)[m']? = some c →
          3 ≤ c.size → d.size < c.size)) :=
  bestFitSearch_selects [Block.mk 0 5, Block.mk 32 3] 3 (Block.mk 32 3)

/-- C2: the candidate `best` chosen by the scan at position `i` is split
exactly when `best.size ≥ req + META_SIZE + 1`; the split writes the
remainder header `META_SIZE + req` bytes past the candidate's header with
size `best.size - req - META_SIZE`, shrinks the candidate to exactly `req`,
and re-inserts the remainder into the list; a candidate of size
`req + META_SIZE` is not split, and one of size `req + META_SIZE + 1` leaves
a remainder of usable size exactly 1. -/
theorem bestFitSearch_split_policy (l : List Block) (req i : Nat) (best : Block)
    (h : bestScan req l 0 none = some (i, best)) :
    l[i]? = some best ∧
    (req + META_SIZE + 1 ≤ best.size →
        best_fit_search l req =
          (some ⟨best.addr, req⟩,
           insert_free_block (l.eraseIdx i)
             ⟨best.addr + META_SIZE + req, best.size - req - META_SIZE⟩)) ∧
    (best.size < req + META_SIZE + 1 →
        best_fit_search l req = (some best, l.eraseIdx i)) ∧
    (best.size = req + META_SIZE + 1 → best.size - req - META_SIZE = 1) := by
  have hfind : findBestRec req l = some (i, best) := by
    rw [← bestScan_eq_find]; exact h
  refine ⟨(findBestRec_found req l i best hfind).1, ?_, ?_, ?_⟩
  · intro hs
    unfold best_fit_search
    rw [h]
    dsimp only
    rw [if_pos hs]
  · intro hs
    unfold best_fit_search
    rw [h]
    dsimp only
    rw [if_neg (by omega)]
  · intro hs
    omega

theorem bestFitSearch_split_policy_w :
    ([Block.mk 0 40] : List Block)[0]? = some (Block.mk 0 40) ∧
    (4 + META_SIZE + 1 ≤ (Block.mk 0 40).size →
        best_fit_search [Block.mk 0 40] 4 =
          (some ⟨(Block.mk 0 40).addr, 4⟩,
           insert_free_block (([Block.mk 0 40] : List Block).eraseIdx 0)
             ⟨(Block.mk 0 40).addr + META_SIZE + 4, (Block.mk 0 40).size - 4 - META_SIZE⟩)) ∧
    ((Block.mk 0 40).size < 4 + META_SIZE + 1 →
        best_fit_search [Block.mk 0 40] 4 =
          (some (Block.mk 0 40), ([Block.mk 0 40] : List Block).eraseIdx 0)) ∧
    ((Block.mk 0 40).size = 4 + META_SIZE + 1 →
        (Block.mk 0 40).size - 4 - META_SIZE = 1) :=
  bestFitSearch_split_policy [Block.mk 0 40] 4 0 (Block.mk 0 40) (by decide)

/-- C3 counterexample: allocating 1 byte from a free list holding a single
block of size 2 succeeds without splitting (2 < 1 + META_SIZE + 1) and
returns the block with its size field still 2, not the requested 1. -/
theorem malloc_exact_size_cex :
    (ts_malloc_lock true ⟨[Block.mk 0 2], 100⟩ 1).1 = some (Block.mk 0 2) ∧
      (Block.mk 0 2).size ≠ 1 := by decide

/-- C3 (amended): for every successful allocation with `size > 0`, in either
variant, the returned block's size field is at least the requested size and
at most the requested size plus `META_SIZE`; it equals the request exactly
on the heap-growth path and whenever the candidate is split, but an unsplit
best-fit candidate keeps its original, possibly larger, size field. -/
theorem malloc_size_bounds (ok : Bool) (st : AllocState) (n : Nat) (b : Block)
    (st2 : AllocState) (hn : 0 < n) :
    (ts_malloc_lock ok st n = (some b, st2) → n ≤ b.size ∧ b.size ≤ n + META_SIZE) ∧
    (ts_malloc_nolock ok st n = (some b, st2) → n ≤ b.size ∧ b.size ≤ n + META_SIZE) := by
  have hsame : ts_malloc_nolock ok st n = ts_malloc_lock ok st n := rfl
  have hlock : ts_malloc_lock ok st n = (some b, st2) →
      n ≤ b.size ∧ b.size ≤ n + META_SIZE := by
    intro h
    unfold ts_malloc_lock at h
    rw [if_neg (by omega)] at h
    cases hbfs : best_fit_search st.freeList n with
    | mk o l2 =>
        rw [hbfs] at h
        cases o with
        | some r =>
            dsimp only at h
            rw [Prod.mk.injEq, Option.some.injEq] at h
            obtain ⟨hb, -⟩ := h
            obtain ⟨m, d, -, -, h1, h2, -⟩ :=
              bfs_found st.freeList n r (by rw [hbfs])
            rw [← hb]
            exact ⟨h1, h2⟩
        | none =>
            dsimp only at h
            cases ok with
            | true =>
                rw [if_pos rfl] at h
                rw [Prod.mk.injEq, Option.some.injEq] at h
                obtain ⟨hb, -⟩ := h
                rw [← hb]
                dsimp only
                omega
            | false =>
                rw [if_neg (by simp)] at h
                simp at h
  exact ⟨hlock, fun h => hlock (by rw [← hsame]; exact h)⟩

theorem malloc_size_bounds_w :
    1 ≤ (Block.mk 0 1).size ∧ (Block.mk 0 1).size ≤ 1 + META_SIZE :=
  (malloc_size_bounds true ⟨[], 0⟩ 1 (Block.mk 0 1) ⟨[], 17⟩ (by decide)).1 (by decide)

/-- C4: inserting a block whose address does not already occur in a strictly
address-sorted free list leaves the list strictly address-sorted: every pair
of consecutive blocks `p -> q` satisfies `p.addr < q.addr`, so the sort
invariant is preserved across any sequence of inserts. -/
theorem insertFreeBlock_preserves_sorted (l : List Block) (b : Block)
    (hs : l.Pairwise (fun x y => x.addr < y.addr))
    (hfresh : ∀ c ∈ l, c.addr ≠ b.addr) :
    (insert_free_block l b).Pairwise (fun x y => x.addr < y.addr) := by
  cases l with
  | nil => simp [insert_free_block]
  | cons c rest =>
      by_cases hc : c.addr < b.addr
      · simp only [insert_free_block, if_pos hc]
        exact insertLoop_sorted rest c b hs hc hfresh
      · simp only [insert_free_block, if_neg hc]
        have hbc : b.addr < c.addr := by
          have h1 : b.addr ≤ c.addr := Nat.le_of_not_lt hc
          have h2 : c.addr ≠ b.addr := hfresh c (by simp)
          omega
        by_cases hf : blockEnd b = c.addr
        · simp only [mergeNext, if_pos hf]
          rw [List.pairwise_cons]
          refine ⟨?_, (List.pairwise_cons.mp hs).2⟩
          intro x hx
          have hcx : c.addr < x.addr := (List.pairwise_cons.mp hs).1 x hx
          dsimp
          omega
        · simp only [mergeNext, if_neg hf]
          rw [List.pairwise_cons]
          refine ⟨?_, hs⟩
          intro x hx
          rcases List.mem_cons.mp hx with hx | hx
          · subst hx; exact hbc
          · have hcx : c.addr < x.addr := (List.pairwise_cons.mp hs).1 x hx
            omega

theorem insertFreeBlock_preserves_sorted_w :
    (insert_free_block [Block.mk 0 4, Block.mk 100 5] (Block.mk 40 2)).Pairwise
      (fun x y => x.addr < y.addr) :=
  insertFreeBlock_preserves_sorted [Block.mk 0 4, Block.mk 100 5] (Block.mk 40 2)
    (by decide) (by decide)

/-- C5: inserting a block whose span is disjoint from a separated free list
(consecutive blocks strictly apart: no overlap, no physical adjacency)
yields a separated list again — the inserted block is merged with its
physical successor and/or predecessor when adjacent; moreover freeing three
contiguous blocks `A`, `B`, `C` in any of the six possible orders leaves a
single free block spanning the full combined region. -/
theorem insertFreeBlock_no_adjacency (l : List Block) (b : Block) (a sa sb sc : Nat)
    (hs : l.Pairwise (fun x y => blockEnd x < y.addr))
    (hd : ∀ c ∈ l, blockEnd c ≤ b.addr ∨ blockEnd b ≤ c.addr) :
    (insert_free_block l b).Pairwise (fun x y => blockEnd x < y.addr) ∧
    (insert_free_block (insert_free_block (insert_free_block [] ⟨a, sa⟩)
        ⟨a + META_SIZE + sa, sb⟩) ⟨a + META_SIZE + sa + META_SIZE + sb, sc⟩ =
      [⟨a, sa + META_SIZE + sb + META_SIZE + sc⟩]) ∧
    (insert_free_block (insert_free_block (insert_free_block [] ⟨a, sa⟩)
        ⟨a + META_SIZE + sa + META_SIZE + sb, sc⟩) ⟨a + META_SIZE + sa, sb⟩ =
      [⟨a, sa + META_SIZE + sb + META_SIZE + sc⟩]) ∧
    (insert_free_block (insert_free_block (insert_free_block [] ⟨a + META_SIZE + sa, sb⟩)
        ⟨a, sa⟩) ⟨a + META_SIZE + sa + META_SIZE + sb, sc⟩ =
      [⟨a, sa + META_SIZE + sb + META_SIZE + sc⟩]) ∧
    (insert_free_block (insert_free_block (insert_free_block [] ⟨a + META_SIZE + sa, sb⟩)
        ⟨a + META_SIZE + sa + META_SIZE + sb, sc⟩) ⟨a, sa⟩ =
      [⟨a, sa + META_SIZE + sb + META_SIZE + sc⟩]) ∧
    (insert_free_block (insert_free_block (insert_free_block []
        ⟨a + META_SIZE + sa + META_SIZE + sb, sc⟩) ⟨a, sa⟩) ⟨a + META_SIZE + sa, sb⟩ =
      [⟨a, sa + META_SIZE + sb + META_SIZE + sc⟩]) ∧
    (insert_free_block (insert_free_block (insert_free_block []
        ⟨a + META_SIZE + sa + META_SIZE + sb, sc⟩) ⟨a + META_SIZE + sa, sb⟩) ⟨a, sa⟩ =
      [⟨a, sa + META_SIZE + sb + META_SIZE + sc⟩]) := by
  refine ⟨?_, coalesce_ABC a sa sb sc, coalesce_ACB a sa sb sc, coalesce_BAC a sa sb sc,
    coalesce_BCA a sa sb sc, coalesce_CAB a sa sb sc, coalesce_CBA a sa sb sc⟩
  cases l with
  | nil => simp [insert_free_block]
  | cons c rest =>
      by_cases hc : c.addr < b.addr
      · simp only [insert_free_block, if_pos hc]
        exact insertLoop_sep rest c b hs hc hd
      · simp only [insert_free_block, if_neg hc]
        have hM : META_SIZE = 16 := rfl
        have hbc : blockEnd b ≤ c.addr := by
          rcases hd c (by simp) with h | h
          · exfalso
            have hle : b.addr ≤ c.addr := Nat.le_of_not_lt hc
            simp only [blockEnd] at h
            omega
          · exact h
        by_cases hf : blockEnd b = c.addr
        · simp only [mergeNext, if_pos hf]
          rw [List.pairwise_cons]
          refine ⟨?_, (List.pairwise_cons.mp hs).2⟩
          intro x hx
          have hcx : blockEnd c < x.addr := (List.pairwise_cons.mp hs).1 x hx
          simp only [blockEnd] at hf hcx ⊢
          omega
        · simp only [mergeNext, if_neg hf]
          rw [List.pairwise_cons]
          refine ⟨?_, hs⟩
          intro x hx
          rcases List.mem_cons.mp hx with hx | hx
          · subst hx
            omega
          · have hcx : blockEnd c < x.addr := (List.pairwise_cons.mp hs).1 x hx
            have hce : c.addr < blockEnd c := by simp only [blockEnd]; omega
            omega

theorem insertFreeBlock_no_adjacency_w :
    (insert_free_block [Block.mk 0 4, Block.mk 100 5] (Block.mk 40 2)).Pairwise
      (fun x y => blockEnd x < y.addr) ∧
    (insert_free_block (insert_free_block (insert_free_block [] ⟨0, 1⟩)
        ⟨0 + META_SIZE + 1, 2⟩) ⟨0 + META_SIZE + 1 + META_SIZE + 2, 3⟩ =
      [⟨0, 1 + META_SIZE + 2 + META_SIZE + 3⟩]) ∧
    (insert_free_block (insert_free_block (insert_free_block [] ⟨0, 1⟩)
        ⟨0 + META_SIZE + 1 + META_SIZE + 2, 3⟩) ⟨0 + META_SIZE + 1, 2⟩ =
      [⟨0, 1 + META_SIZE + 2 + META_SIZE + 3⟩]) ∧
    (insert_free_block (insert_free_block (insert_free_block [] ⟨0 + META_SIZE + 1, 2⟩)
        ⟨0, 1⟩) ⟨0 + META_SIZE + 1 + META_SIZE + 2, 3⟩ =
      [⟨0, 1 + META_SIZE + 2 + META_SIZE + 3⟩]) ∧
    (insert_free_block (insert_free_block (insert_free_block [] ⟨0 + META_SIZE + 1, 2⟩)
        ⟨0 + META_SIZE + 1 + META_SIZE + 2, 3⟩) ⟨0, 1⟩ =
      [⟨0, 1 + META_SIZE + 2 + META_SIZE + 3⟩]) ∧
    (insert_free_block (insert_free_block (insert_free_block []
        ⟨0 + META_SIZE + 1 + META_SIZE + 2, 3⟩) ⟨0, 1⟩) ⟨0 + META_SIZE + 1, 2⟩ =
      [⟨0, 1 + META_SIZE + 2 + META_SIZE + 3⟩]) ∧
    (insert_free_block (insert_free_block (insert_free_block []
        ⟨0 + META_SIZE + 1 + META_SIZE + 2, 3⟩) ⟨0 + META_SIZE + 1, 2⟩) ⟨0, 1⟩ =
      [⟨0, 1 + META_SIZE + 2 + META_SIZE + 3⟩]) :=
  insertFreeBlock_no_adjacency [Block.mk 0 4, Block.mk 100 5] (Block.mk 40 2) 0 1 2 3
    (by decide) (by decide)

/-- C6: when the request is nonzero, the search misses and `sbrk` fails,
both variants return null and perform no mutation at all: no header is
written, the free list and the heap break are unchanged. -/
theorem malloc_growth_failure (st : AllocState) (n : Nat) (hn : n ≠ 0)
    (hmiss : (best_fit_search st.freeList n).1 = none) :
    ts_malloc_lock false st n = (none, st) ∧ ts_malloc_nolock false st n = (none, st) := by
  have heq : best_fit_search st.freeList n = (none, st.freeList) :=
    bfs_fst_none st.freeList n hmiss
  have hlock : ts_malloc_lock false st n = (none, st) := by
    unfold ts_malloc_lock
    rw [if_neg hn, heq]
    rfl
  exact ⟨hlock, hlock⟩

theorem malloc_growth_failure_w :
    ts_malloc_lock false ⟨[], 5⟩ 3 = (none, (⟨[], 5⟩ : AllocState)) ∧
      ts_malloc_nolock false ⟨[], 5⟩ 3 = (none, (⟨[], 5⟩ : AllocState)) :=
  malloc_growth_failure ⟨[], 5⟩ 3 (by decide) (by decide)

/-- C7: `allocate(0)` returns null with no observable side effect: the free
list and the heap break are exactly unchanged, in both variants. -/
theorem malloc_zero_no_effect (ok : Bool) (st : AllocState) :
    ts_malloc_lock ok st 0 = (none, st) ∧ ts_malloc_nolock ok st 0 = (none, st) :=
  ⟨rfl, rfl⟩

/-- C8: an insert changes the list length by at most one net: the new length
is the old length plus one (no merge), the old length (one merge), or the
old length minus one (merges with both neighbours). -/
theorem insertFreeBlock_length_change (l : List Block) (b : Block) :
    (insert_free_block l b).length = l.length + 1 ∨
      (insert_free_block l b).length = l.length ∨
      (insert_free_block l b).length + 1 = l.length := by
  cases l with
  | nil => left; rfl
  | cons c rest =>
      by_cases hc : c.addr < b.addr
      · have h := insertLoop_len rest c b
        simp only [insert_free_block, if_pos hc, List.length_cons]
        omega
      · have h := mergeNext_len b (c :: rest)
        simp only [insert_free_block, if_neg hc, List.length_cons] at *
        omega

/-- C9: when no block is at least the requested size, `best_fit_search`
reports not-found and the free list is returned exactly unchanged; any
not-found result leaves the list identical to the input. -/
theorem bestFitSearch_miss_frame (l : List Block) (req : Nat) :
    ((best_fit_search l req).1 = none → (best_fit_search l req).2 = l) ∧
    ((∀ c ∈ l, c.size < req) → best_fit_search l req = (none, l)) := by
  constructor
  · intro h
    rw [bfs_fst_none l req h]
  · intro h
    exact bfs_of_scan_none l req (bestScan_miss req l 0 h)

theorem bestFitSearch_miss_frame_w :
    best_fit_search [Block.mk 0 5] 9 = (none, [Block.mk 0 5]) :=
  (bestFitSearch_miss_frame [Block.mk 0 5] 9).2 (by decide)

/-- C10: inserting a block `b` disjoint from the list's blocks conserves
covered memory: the sum of `META_SIZE + size` over the resulting list equals
the old sum plus `META_SIZE + b.size`, whether zero, one, or two coalescing
merges occur. -/
theorem insertFreeBlock_conserves_cover (l : List Block) (b : Block)
    (_hd : ∀ c ∈ l, blockEnd c ≤ b.addr ∨ blockEnd b ≤ c.addr) :
    coverSum (insert_free_block l b) = coverSum l + (META_SIZE + b.size) :=
  insert_cover l b

theorem insertFreeBlock_conserves_cover_w :
    coverSum (insert_free_block [Block.mk 0 4] (Block.mk 40 5)) =
      coverSum [Block.mk 0 4] + (META_SIZE + (Block.mk 40 5).size) :=
  insertFreeBlock_conserves_cover [Block.mk 0 4] (Block.mk 40 5) (by decide)
